import Mathlib

/-!
# Verification of the origin-fetch & caching pipeline

Shallow embedding of the core modules of the `my-github-cdn` repository:

* `lib/cache.js` — `LRUCache` (bounded-size, bounded-count, TTL-based LRU store);
* `lib/github-client.js` — `GitHubClient` (retry/backoff origin client);
* `lib/compression.js` — `compressContent` (content-negotiation compressor);
* `lib/security.js` — `RateLimiter` (sliding-window admission limiter).

JavaScript `Map` iteration order is insertion order, so the cache's backing
`Map` is embedded as an association list `List (String × CacheEntry)` whose
head is the oldest (least recently inserted/refreshed) binding.  Buffers are
embedded as `List Nat` (byte lists); `Buffer.byteLength` is `List.length`.
`Date.now()` is passed in explicitly as a timestamp argument.
-/

namespace CDN

/-- A cache entry, from `lib/cache.js` (`CacheEntry` typedef):
`data` (cached buffer), `expiresAt`, `size`, `accessedAt`. -/
structure CacheEntry where
  data : List Nat
  expiresAt : Nat
  size : Nat
  accessedAt : Nat
  deriving Repr, DecidableEq

/-- JS `Map.get`: the value bound to `key`, if any (keys in a JS `Map` are unique;
we look up the first binding). -/
def mapGet : List (String × CacheEntry) → String → Option CacheEntry
  | [], _ => none
  | (k, e) :: rest, key => if k = key then some e else mapGet rest key

/-- JS `Map.delete`: removes the binding of `key` (the first, matching JS `Map`
semantics where keys are unique). -/
def mapDelete : List (String × CacheEntry) → String → List (String × CacheEntry)
  | [], _ => []
  | (k, e) :: rest, key => if k = key then rest else (k, e) :: mapDelete rest key

/-- JS `Map.set`: updates the binding in place when `key` is present, otherwise
appends the new binding at the end (most recent position). -/
def mapSet : List (String × CacheEntry) → String → CacheEntry → List (String × CacheEntry)
  | [], key, e => [(key, e)]
  | (k, e0) :: rest, key, e =>
      if k = key then (key, e) :: rest else (k, e0) :: mapSet rest key e

/-- Sum of the `size` fields of the live entries. -/
def sumSizes (l : List (String × CacheEntry)) : Nat :=
  (l.map (fun p => p.2.size)).sum

/-- The `LRUCache` class state, from `lib/cache.js`.  `currentSizeBytes` is a
JS number that is incremented/decremented, so it is embedded as `Int`. -/
structure LRUCache where
  cache : List (String × CacheEntry)
  maxSizeBytes : Nat
  maxEntries : Nat
  ttlSeconds : Nat
  currentSizeBytes : Int
  deriving Repr, DecidableEq

namespace LRUCache

/-- The `LRUCache` constructor. -/
def mkCache (maxSizeBytes maxEntries ttlSeconds : Nat) : LRUCache :=
  { cache := []
    maxSizeBytes := maxSizeBytes
    maxEntries := maxEntries
    ttlSeconds := ttlSeconds
    currentSizeBytes := 0 }

/-- Source `LRUCache.delete(key)`: removes the entry and subtracts its size from
`currentSizeBytes`; returns whether an entry was removed. -/
def del (c : LRUCache) (key : String) : LRUCache × Bool :=
  match mapGet c.cache key with
  | some entry =>
      ({ c with
          currentSizeBytes := c.currentSizeBytes - entry.size
          cache := mapDelete c.cache key }, true)
  | none => (c, false)

/-- Source `LRUCache.get(key)` at time `now` (`Date.now()`): absent keys yield `null`;
an entry with `now ≥ expiresAt` is deleted and `null` returned; otherwise the
access time is refreshed and the entry moved to the most-recent position
(`cache.delete(key); cache.set(key, entry)` — note the raw `Map` delete, so
`currentSizeBytes` is untouched). -/
def get (c : LRUCache) (key : String) (now : Nat) : Option (List Nat) × LRUCache :=
  match mapGet c.cache key with
  | none => (none, c)
  | some entry =>
      if now ≥ entry.expiresAt then
        (none, (c.del key).1)
      else
        let entry' := { entry with accessedAt := now }
        (some entry'.data,
          { c with cache := mapSet (mapDelete c.cache key) key entry' })

/-- Source `LRUCache.evictLRU()`: deletes the first (least recently used) binding;
a no-op on an empty cache. -/
def evictLRU (c : LRUCache) : LRUCache :=
  match c.cache with
  | [] => c
  | (firstKey, _) :: _ => (c.del firstKey).1

/-- The guard of the eviction `while` loop in `LRUCache.set`:
`currentSizeBytes + size > maxSizeBytes || cache.size >= maxEntries`. -/
def needsEvict (c : LRUCache) (size : Nat) : Bool :=
  decide (c.currentSizeBytes + (size : Int) > (c.maxSizeBytes : Int)) ||
  decide (c.cache.length ≥ c.maxEntries)

/-- The eviction `while` loop of `LRUCache.set`, with an explicit fuel bound
(the loop body is exactly `evictLRU`).  `set` runs it with fuel
`cache.length + 1`; `evictLoop_spec` below proves that under the cache
invariant this fuel suffices, i.e. the guard is false on exit, so the
fuelled loop coincides with the source's unbounded `while`. -/
def evictLoop (size : Nat) : Nat → LRUCache → LRUCache
  | 0, c => c
  | fuel + 1, c => if needsEvict c size then evictLoop size fuel c.evictLRU else c

/-- Source `LRUCache.set(key, data)` at time `now`: rejects items larger than the
whole budget; deletes an existing binding of the key; evicts LRU entries while
the guard holds; then inserts the fresh entry and accounts its size. -/
def set (c : LRUCache) (key : String) (data : List Nat) (now : Nat) : LRUCache × Bool :=
  let size := data.length
  if size > c.maxSizeBytes then
    (c, false)
  else
    let c1 := if (mapGet c.cache key).isSome then (c.del key).1 else c
    let c2 := evictLoop size (c1.cache.length + 1) c1
    let entry : CacheEntry :=
      { data := data
        expiresAt := now + c2.ttlSeconds * 1000
        size := size
        accessedAt := now }
    ({ c2 with
        cache := mapSet c2.cache key entry
        currentSizeBytes := c2.currentSizeBytes + size }, true)

/-- Source `LRUCache.clearExpired()` at time `now`: deletes every entry with
`now ≥ expiresAt` (the JS `for…of` over the `Map` deletes the entry it is
visiting, which is safe; with unique keys this is a fold of `delete` over the
expired keys of the snapshot).  Returns the number cleared. -/
def clearExpired (c : LRUCache) (now : Nat) : LRUCache × Nat :=
  let expiredKeys :=
    ((c.cache.filter (fun p => now ≥ p.2.expiresAt)).map (fun p => p.1))
  (expiredKeys.foldl (fun acc k => (acc.del k).1) c, expiredKeys.length)

/-- Source `LRUCache.clear()`. -/
def clear (c : LRUCache) : LRUCache :=
  { c with cache := [], currentSizeBytes := 0 }

end LRUCache

/-- One cache operation, for quantifying over operation sequences. -/
inductive CacheOp where
  | get (key : String) (now : Nat)
  | set (key : String) (data : List Nat) (now : Nat)
  | del (key : String)
  | clearExpired (now : Nat)
  | clear
  deriving Repr

/-- Apply one operation to the cache state. -/
def applyOp (c : LRUCache) : CacheOp → LRUCache
  | .get key now => (c.get key now).2
  | .set key data now => (c.set key data now).1
  | .del key => (c.del key).1
  | .clearExpired now => (c.clearExpired now).1
  | .clear => c.clear

/-- Run a sequence of cache operations. -/
def runOps (ops : List CacheOp) (c : LRUCache) : LRUCache :=
  ops.foldl applyOp c

/-- The keys of the live entries, oldest first. -/
def LRUCache.keys (c : LRUCache) : List String :=
  c.cache.map Prod.fst

/-- Well-formedness of a cache state: the `currentSizeBytes` counter agrees
with the actual total of entry sizes, and keys are unique (as in a JS `Map`). -/
def LRUCache.wf (c : LRUCache) : Prop :=
  c.currentSizeBytes = (sumSizes c.cache : Int) ∧ (c.cache.map Prod.fst).Nodup

instance (c : LRUCache) : Decidable c.wf := by
  unfold LRUCache.wf; infer_instance

/-! ## GitHub client (`lib/github-client.js`)

The origin is modelled as a function from the (0-indexed) attempt number to
the response that attempt receives.  Request formation (`buildHeaders`, URL
assembly) and the abort-timeout path are transport details outside the model;
every origin interaction is either a 2xx response with a body or a bare HTTP
status code. -/

/-- The outcome of one origin request: `ok body` is a successful response
(`response.ok`), `status code` any other HTTP status. -/
inductive OriginResponse where
  | ok (body : List Nat)
  | status (code : Nat)
  deriving Repr, DecidableEq

/-- The error classes thrown by `fetchFile`, from `lib/errors.js`.
`fileNotFoundError` carries the missing path (`FileNotFoundError`, status 404);
`gitHubAPIError` carries the path and origin status embedded in its message
together with its own `statusCode` argument (`GitHubAPIError`); the free-text
message and the `details` excerpt of the response body are response metadata
outside the model. -/
inductive FetchError where
  | fileNotFoundError (filePath : String)
  | gitHubAPIError (filePath : String) (originStatus : Nat) (statusCode : Nat)
  deriving Repr, DecidableEq

/-- Whether a `FetchError` is the `GitHubAPIError` class. -/
def FetchError.isGitHubAPIError : FetchError → Bool
  | .gitHubAPIError _ _ _ => true
  | _ => false

/-- The result of `fetchFile` together with its observable effort: the number
of origin attempts issued and the list of backoff sleeps performed (in ms,
in order). -/
structure FetchOutcome where
  result : Except FetchError (List Nat)
  attempts : Nat
  delays : List Nat
  deriving Repr

/-- The `GitHubClient` options, from `lib/github-client.js`.  `rawBaseUrl`,
`userAgent`, `token` and `timeout` only shape the HTTP request and the abort
deadline, which the model does not issue. -/
structure GitHubClient where
  rawBaseUrl : String
  userAgent : String
  token : Option String
  maxRetries : Nat
  retryDelay : Nat
  timeout : Nat
  deriving Repr, DecidableEq

namespace GitHubClient

/-- Source `calculateBackoff(attempt) = retryDelay * 2^attempt`. -/
def calculateBackoff (gc : GitHubClient) (attempt : Nat) : Nat :=
  gc.retryDelay * 2 ^ attempt

/-- Source `isRetryableError(statusCode)`: server errors and rate limiting. -/
def isRetryableError (_gc : GitHubClient) (statusCode : Nat) : Bool :=
  decide (statusCode ≥ 500) || (statusCode == 429)

/-- Source `filePath.replace(/^\/+/, '')`: strip leading slashes (character-wise,
so that the definition evaluates by kernel reduction). -/
def normalizePath (filePath : String) : String :=
  String.mk (filePath.data.dropWhile (fun ch => ch = '/'))

/-- The retry loop of `fetchFile`.  The source iterates
`for attempt in 0..=maxRetries`; here `remaining = maxRetries - attempt`
counts the attempts left, so `remaining = 0` is the source's
`attempt === maxRetries` and the recursion is structural.  Each iteration:

* `response.ok` → return the buffer immediately;
* status 404 → `throw new FileNotFoundError(...)`, which the `catch` block
  rethrows (`error instanceof FileNotFoundError`) — never retried;
* any other status → `lastError = new GitHubAPIError(..., status === 404 ?
  404 : 502, ...)`; then if the status is non-retryable the code throws
  `lastError` — but that throw happens inside the `try`, so its own `catch`
  block catches it, and since it only rethrows `FileNotFoundError`, on a
  non-final attempt it records the error and falls through to the backoff
  sleep exactly as a retryable status does; on the final attempt both paths
  fail with this iteration's `lastError`. -/
def fetchLoop (gc : GitHubClient) (origin : Nat → OriginResponse)
    (path : String) : Nat → Nat → FetchOutcome
  | attempt, remaining =>
    match origin attempt with
    | .ok body => ⟨.ok body, attempt + 1, []⟩
    | .status code =>
        if code == 404 then
          ⟨.error (.fileNotFoundError path), attempt + 1, []⟩
        else
          let lastError : FetchError :=
            .gitHubAPIError path code (if code == 404 then 404 else 502)
          match remaining with
          | 0 =>
              -- `attempt === maxRetries`: retryable → the loop ends and
              -- `throw lastError` fires; non-retryable → the thrown
              -- `lastError` is caught and rethrown as `lastError || error`.
              ⟨.error lastError, attempt + 1, []⟩
          | remaining' + 1 =>
              let rest := fetchLoop gc origin path (attempt + 1) remaining'
              if gc.isRetryableError code then
                -- no exception; sleep `calculateBackoff(attempt)`, continue
                ⟨rest.result, rest.attempts, gc.calculateBackoff attempt :: rest.delays⟩
              else
                -- thrown `lastError` is caught, recorded, and the code
                -- falls through to the same backoff sleep and next attempt
                ⟨rest.result, rest.attempts, gc.calculateBackoff attempt :: rest.delays⟩

/-- Source `fetchFile(filePath)`: normalize the path and run the retry loop from
attempt 0 with `maxRetries` attempts remaining. -/
def fetchFile (gc : GitHubClient) (origin : Nat → OriginResponse)
    (filePath : String) : FetchOutcome :=
  fetchLoop gc origin (normalizePath filePath) 0 gc.maxRetries

end GitHubClient

/-! ## Compression (`lib/compression.js`)

`zlib`'s three codecs are external; they are modelled as an arbitrary triple
of partial functions `List Nat → Option (List Nat)`, `none` standing for the
caught encoder failure that `compressBrotli`/`compressGzip`/`compressDeflate`
turn into a logged `null` return. -/

/-- The three promisified codecs wrapped by `compressBrotli`, `compressGzip`
and `compressDeflate` (each returns `null` on failure). -/
structure Compressors where
  brotli : List Nat → Option (List Nat)
  gzip : List Nat → Option (List Nat)
  deflate : List Nat → Option (List Nat)

/-- The `CompressionResult` record of `compressContent` (the floating-point
display field `compressionRatio` is omitted). -/
structure CompressionResult where
  buffer : Option (List Nat)
  encoding : Option String
  originalSize : Nat
  compressedSize : Nat
  deriving Repr, DecidableEq

/-- Helper for `strIncludes`: does `s` start with `pat`? -/
def charsStartsWith : List Char → List Char → Bool
  | _, [] => true
  | [], _ :: _ => false
  | a :: as, b :: bs => a == b && charsStartsWith as bs

/-- Helper for `strIncludes`: does `pat` occur contiguously in `s`? -/
def charsContains (s pat : List Char) : Bool :=
  match s with
  | [] => pat.isEmpty
  | _ :: rest => charsStartsWith s pat || charsContains rest pat

/-- JavaScript `String.prototype.includes`: substring containment. -/
def strIncludes (s pattern : String) : Bool :=
  charsContains s.data pattern.data

/-- JavaScript `String.prototype.toLowerCase` (character-wise lowering). -/
def strToLower (s : String) : String :=
  String.mk (s.data.map Char.toLower)

/-- Source `compressContent(buffer, acceptEncoding)`: try Brotli, then Gzip, then
Deflate — each only when its token occurs in the lowercased accept-encoding
string — and return the first result that exists and is strictly smaller
than the original; otherwise fall through, ending with the all-`null`
result. -/
def compressContent (z : Compressors) (buffer : List Nat)
    (acceptEncoding : String) : CompressionResult :=
  let originalSize := buffer.length
  let acceptEncodingLower := strToLower acceptEncoding
  let noCompression : CompressionResult :=
    { buffer := none, encoding := none, originalSize := originalSize
      compressedSize := 0 }
  let tryDeflate : CompressionResult :=
    if strIncludes acceptEncodingLower "deflate" then
      match z.deflate buffer with
      | some compressed =>
          if compressed.length < originalSize then
            { buffer := some compressed, encoding := some "deflate"
              originalSize := originalSize, compressedSize := compressed.length }
          else noCompression
      | none => noCompression
    else noCompression
  let tryGzip : CompressionResult :=
    if strIncludes acceptEncodingLower "gzip" then
      match z.gzip buffer with
      | some compressed =>
          if compressed.length < originalSize then
            { buffer := some compressed, encoding := some "gzip"
              originalSize := originalSize, compressedSize := compressed.length }
          else tryDeflate
      | none => tryDeflate
    else tryDeflate
  if strIncludes acceptEncodingLower "br" then
    match z.brotli buffer with
    | some compressed =>
        if compressed.length < originalSize then
          { buffer := some compressed, encoding := some "br"
            originalSize := originalSize, compressedSize := compressed.length }
        else tryGzip
    | none => tryGzip
  else tryGzip

/-- The payload the handler serves, from `api/cdn.js` (lines 138–141): the
compressed buffer when the result carries one, the original buffer
otherwise. -/
def CompressionResult.effectivePayload (r : CompressionResult)
    (original : List Nat) : List Nat :=
  match r.buffer with
  | some b => b
  | none => original

/-- Modelled from the spec: the `negotiate` algorithm of §4.3 as written —
candidate algorithms in the fixed preference order brotli → gzip → deflate,
keeping only those whose tokens appear in the accepted encodings. -/
def candidates (z : Compressors) (buffer : List Nat)
    (acceptEncoding : String) : List (String × Option (List Nat)) :=
  let ae := strToLower acceptEncoding
  (if strIncludes ae "br" then [("br", z.brotli buffer)] else []) ++
  (if strIncludes ae "gzip" then [("gzip", z.gzip buffer)] else []) ++
  (if strIncludes ae "deflate" then [("deflate", z.deflate buffer)] else [])

/-- Modelled from the spec: first-beneficial-win selection of §4.3 — return
the first candidate that succeeded and is strictly smaller than the original;
a failed candidate falls through to the next and is never propagated. -/
def firstBeneficial (originalSize : Nat) :
    List (String × Option (List Nat)) → Option (String × List Nat)
  | [] => none
  | (name, some compressed) :: rest =>
      if compressed.length < originalSize then some (name, compressed)
      else firstBeneficial originalSize rest
  | (_, none) :: rest => firstBeneficial originalSize rest

/-! ## Rate limiter (`lib/security.js`)

Timestamps are `Int` (JS numbers under subtraction).  The background sweep
(`startCleanup`) only prunes the same stale timestamps that `checkLimit`
prunes lazily; the claims concern `checkLimit`. -/

/-- The `RateLimiter` state: the per-client timestamp lists plus configuration. -/
structure RateLimiter where
  requests : List (String × List Int)
  maxRequests : Nat
  windowMs : Int
  deriving Repr, DecidableEq

namespace RateLimiter

/-- The `RateLimiter` constructor (defaults 100 requests per 60000 ms). -/
def mkLimiter (maxRequests : Nat) (windowMs : Int) : RateLimiter :=
  { requests := [], maxRequests := maxRequests, windowMs := windowMs }

/-- Source `this.requests.get(clientId) || []`. -/
def getRequests : List (String × List Int) → String → List Int
  | [], _ => []
  | (k, ts) :: rest, clientId =>
      if k = clientId then ts else getRequests rest clientId

/-- Source `this.requests.set(clientId, ...)`: update in place or append. -/
def setRequests : List (String × List Int) → String → List Int →
    List (String × List Int)
  | [], clientId, ts => [(clientId, ts)]
  | (k, ts0) :: rest, clientId, ts =>
      if k = clientId then (clientId, ts) :: rest
      else (k, ts0) :: setRequests rest clientId ts

/-- Source `checkLimit(clientId)` at time `now`: prune the client's timestamps to
the trailing window; if the pruned count is already at the limit, throw
`RateLimitError` — without writing the map, so the rejected request is not
recorded; otherwise append `now` and allow. -/
def checkLimit (rl : RateLimiter) (clientId : String) (now : Int) :
    RateLimiter × Bool :=
  let clientRequests := getRequests rl.requests clientId
  let validRequests := clientRequests.filter
    (fun timestamp => now - timestamp < rl.windowMs)
  if validRequests.length ≥ rl.maxRequests then
    (rl, false)
  else
    let updated := setRequests rl.requests clientId (validRequests ++ [now])
    ({ rl with requests := updated }, true)

/-- The allow/deny outcomes of a sequence of `checkLimit` calls for one
client at the given times. -/
def checkSeq (rl : RateLimiter) (clientId : String) (times : List Int) :
    List Bool :=
  (times.foldl (fun acc t =>
      let r := acc.1.checkLimit clientId t
      (r.1, acc.2 ++ [r.2])) (rl, [])).2

end RateLimiter

/-! ## Association-list lemmas

`mapGet` / `mapDelete` / `mapSet` work on the first binding of a key; states
reachable from the constructor keep keys unique (`Nodup`), matching JS `Map`. -/

theorem mapGet_eq_none_iff (l : List (String × CacheEntry)) (key : String) :
    mapGet l key = none ↔ key ∉ l.map Prod.fst := by
  induction l with
  | nil => simp [mapGet]
  | cons p rest ih =>
      by_cases h : p.1 = key
      · simp [mapGet, h]
      · simp [mapGet, h, ih, Ne.symm h]

theorem sumSizes_nil : sumSizes [] = 0 := rfl

theorem sumSizes_cons (p : String × CacheEntry) (l : List (String × CacheEntry)) :
    sumSizes (p :: l) = p.2.size + sumSizes l := by
  simp [sumSizes]

theorem sumSizes_append (l₁ l₂ : List (String × CacheEntry)) :
    sumSizes (l₁ ++ l₂) = sumSizes l₁ + sumSizes l₂ := by
  simp [sumSizes]

theorem sumSizes_mapDelete {l : List (String × CacheEntry)} {key : String}
    {e : CacheEntry} (h : mapGet l key = some e) :
    sumSizes l = e.size + sumSizes (mapDelete l key) := by
  induction l with
  | nil => simp [mapGet] at h
  | cons p rest ih =>
      by_cases hp : p.1 = key
      · simp only [mapGet, if_pos hp, Option.some.injEq] at h
        simp [mapDelete, hp, sumSizes_cons, h]
      · simp only [mapGet, if_neg hp] at h
        simp [mapDelete, hp, sumSizes_cons, ih h]
        omega

theorem length_mapDelete {l : List (String × CacheEntry)} {key : String}
    {e : CacheEntry} (h : mapGet l key = some e) :
    l.length = (mapDelete l key).length + 1 := by
  induction l with
  | nil => simp [mapGet] at h
  | cons p rest ih =>
      by_cases hp : p.1 = key
      · simp [mapDelete, hp]
      · simp only [mapGet, if_neg hp] at h
        simp [mapDelete, hp, ih h]

theorem mapDelete_of_none {l : List (String × CacheEntry)} {key : String}
    (h : mapGet l key = none) : mapDelete l key = l := by
  induction l with
  | nil => rfl
  | cons p rest ih =>
      by_cases hp : p.1 = key
      · simp [mapGet, hp] at h
      · simp only [mapGet, if_neg hp] at h
        simp [mapDelete, hp, ih h]

theorem mem_keys_mapDelete {l : List (String × CacheEntry)} {key k : String}
    (h : k ∈ (mapDelete l key).map Prod.fst) : k ∈ l.map Prod.fst := by
  induction l with
  | nil => simp [mapDelete] at h
  | cons p rest ih =>
      by_cases hp : p.1 = key
      · simp only [mapDelete, if_pos hp] at h
        simp [h]
      · simp only [mapDelete, if_neg hp, List.map_cons, List.mem_cons] at h
        rcases h with h | h
        · simp [h]
        · simp [ih h]

theorem nodup_mapDelete {l : List (String × CacheEntry)} {key : String}
    (h : (l.map Prod.fst).Nodup) : ((mapDelete l key).map Prod.fst).Nodup := by
  induction l with
  | nil => simp [mapDelete]
  | cons p rest ih =>
      simp only [List.map_cons, List.nodup_cons] at h
      by_cases hp : p.1 = key
      · simpa [mapDelete, hp] using h.2
      · simp only [mapDelete, if_neg hp, List.map_cons, List.nodup_cons]
        exact ⟨fun hc => h.1 (mem_keys_mapDelete hc), ih h.2⟩

theorem not_mem_keys_mapDelete {l : List (String × CacheEntry)} {key : String}
    (h : (l.map Prod.fst).Nodup) : key ∉ (mapDelete l key).map Prod.fst := by
  induction l with
  | nil => simp [mapDelete]
  | cons p rest ih =>
      simp only [List.map_cons, List.nodup_cons] at h
      by_cases hp : p.1 = key
      · simp only [mapDelete, if_pos hp]
        intro hc
        exact h.1 (hp ▸ hc)
      · simp only [mapDelete, if_neg hp, List.map_cons, List.mem_cons]
        rintro (hc | hc)
        · exact hp hc.symm
        · exact ih h.2 hc

theorem mapSet_of_not_mem {l : List (String × CacheEntry)} {key : String}
    (e : CacheEntry) (h : key ∉ l.map Prod.fst) :
    mapSet l key e = l ++ [(key, e)] := by
  induction l with
  | nil => rfl
  | cons p rest ih =>
      simp only [List.map_cons, List.mem_cons] at h
      push_neg at h
      simp [mapSet, Ne.symm h.1, ih h.2]

theorem mapGet_append_self {l : List (String × CacheEntry)} {key : String}
    (e : CacheEntry) (h : key ∉ l.map Prod.fst) :
    mapGet (l ++ [(key, e)]) key = some e := by
  induction l with
  | nil => simp [mapGet]
  | cons p rest ih =>
      simp only [List.map_cons, List.mem_cons] at h
      push_neg at h
      simp [mapGet, Ne.symm h.1, ih h.2]

/-! ## The cache well-formedness invariant -/

namespace LRUCache

theorem del_fields (c : LRUCache) (key : String) :
    ((c.del key).1).maxSizeBytes = c.maxSizeBytes ∧
    ((c.del key).1).maxEntries = c.maxEntries ∧
    ((c.del key).1).ttlSeconds = c.ttlSeconds := by
  unfold del
  cases mapGet c.cache key <;> simp

theorem del_wf {c : LRUCache} (key : String) (h : c.wf) : ((c.del key).1).wf := by
  unfold del
  cases hg : mapGet c.cache key with
  | none => simpa using h
  | some e =>
      refine ⟨?_, nodup_mapDelete h.2⟩
      have hs := sumSizes_mapDelete hg
      have hc := h.1
      simp only
      omega

theorem del_length_le (c : LRUCache) (key : String) :
    ((c.del key).1).cache.length ≤ c.cache.length := by
  unfold del
  cases hg : mapGet c.cache key with
  | none => simp
  | some e => have := length_mapDelete hg; simp; omega

theorem del_sumSizes_le (c : LRUCache) (key : String) :
    sumSizes ((c.del key).1).cache ≤ sumSizes c.cache := by
  unfold del
  cases hg : mapGet c.cache key with
  | none => simp
  | some e => have := sumSizes_mapDelete hg; simp; omega

theorem del_keys_subset {c : LRUCache} {key k : String}
    (h : k ∈ ((c.del key).1).cache.map Prod.fst) : k ∈ c.cache.map Prod.fst := by
  unfold del at h
  cases hg : mapGet c.cache key with
  | none => rw [hg] at h; simpa using h
  | some e => rw [hg] at h; simp only at h; exact mem_keys_mapDelete h

theorem evictLRU_fields (c : LRUCache) :
    (c.evictLRU).maxSizeBytes = c.maxSizeBytes ∧
    (c.evictLRU).maxEntries = c.maxEntries ∧
    (c.evictLRU).ttlSeconds = c.ttlSeconds := by
  unfold evictLRU
  cases c.cache with
  | nil => exact ⟨rfl, rfl, rfl⟩
  | cons p rest => exact del_fields c p.1

theorem evictLRU_wf {c : LRUCache} (h : c.wf) : (c.evictLRU).wf := by
  unfold evictLRU
  cases c.cache with
  | nil => exact h
  | cons p rest => exact del_wf p.1 h

theorem evictLRU_eq {c : LRUCache} {p : String × CacheEntry}
    {rest : List (String × CacheEntry)} (hc : c.cache = p :: rest) :
    c.evictLRU = (c.del p.1).1 := by
  unfold evictLRU
  rw [hc]

theorem del_cache_of_some {c : LRUCache} {key : String} {e : CacheEntry}
    (hg : mapGet c.cache key = some e) :
    ((c.del key).1).cache = mapDelete c.cache key := by
  unfold del
  rw [hg]

/-- The method `evictLRU` removes exactly one entry from a nonempty cache. -/
theorem evictLRU_length {c : LRUCache} (h : c.cache ≠ []) :
    (c.evictLRU).cache.length + 1 = c.cache.length := by
  cases hc : c.cache with
  | nil => exact absurd hc h
  | cons p rest =>
      have hg : mapGet c.cache p.1 = some p.2 := by rw [hc]; simp [mapGet]
      rw [evictLRU_eq hc, del_cache_of_some hg, hc]
      simp [mapDelete]

theorem evictLRU_keys_subset {c : LRUCache} {k : String}
    (h : k ∈ (c.evictLRU).cache.map Prod.fst) : k ∈ c.cache.map Prod.fst := by
  cases hc : c.cache with
  | nil =>
      unfold evictLRU at h
      rw [hc] at h
      exact hc ▸ h
  | cons p rest =>
      rw [evictLRU_eq hc] at h
      have := del_keys_subset h
      rwa [hc] at this

/-- Under the invariant (`wf`, item within budget, `maxEntries ≥ 1`), any fuel
exceeding the number of live entries drives the eviction-loop guard to false —
i.e. the source's `while` loop terminates within `cache.size` iterations.
Well-formedness, the configuration fields, and key-absence are preserved. -/
theorem evictLoop_spec (size fuel : Nat) (c : LRUCache)
    (hwf : c.wf) (hmax : 1 ≤ c.maxEntries) (hsize : size ≤ c.maxSizeBytes)
    (hfuel : c.cache.length < fuel) :
    (evictLoop size fuel c).wf ∧
    needsEvict (evictLoop size fuel c) size = false ∧
    (evictLoop size fuel c).maxSizeBytes = c.maxSizeBytes ∧
    (evictLoop size fuel c).maxEntries = c.maxEntries ∧
    (evictLoop size fuel c).ttlSeconds = c.ttlSeconds ∧
    (∀ k, k ∈ (evictLoop size fuel c).cache.map Prod.fst →
      k ∈ c.cache.map Prod.fst) := by
  induction fuel generalizing c with
  | zero => omega
  | succ fuel ih =>
      by_cases hg : needsEvict c size = true
      · have hne : c.cache ≠ [] := by
          intro hnil
          have hcurr : c.currentSizeBytes = 0 := by
            rw [hwf.1, hnil]; rfl
          unfold needsEvict at hg
          rw [hnil, hcurr] at hg
          simp at hg
          omega
        have hlen : (c.evictLRU).cache.length + 1 = c.cache.length :=
          evictLRU_length hne
        have hf := evictLRU_fields c
        have hmax' : 1 ≤ (c.evictLRU).maxEntries := by rw [hf.2.1]; exact hmax
        have hsize' : size ≤ (c.evictLRU).maxSizeBytes := by rw [hf.1]; exact hsize
        have h2 := ih c.evictLRU (evictLRU_wf hwf) hmax' hsize' (by omega)
        simp only [evictLoop]
        rw [if_pos hg]
        refine ⟨h2.1, h2.2.1, ?_, ?_, ?_, ?_⟩
        · rw [h2.2.2.1, hf.1]
        · rw [h2.2.2.2.1, hf.2.1]
        · rw [h2.2.2.2.2.1, hf.2.2]
        · intro k hk
          exact evictLRU_keys_subset (h2.2.2.2.2.2 k hk)
      · simp only [evictLoop]
        rw [if_neg hg]
        exact ⟨hwf, by simpa using hg, rfl, rfl, rfl, fun k hk => hk⟩

/-- The full specification of a successful `set`: under the invariant and with
the item within budget, `set` returns `true`, preserves well-formedness and
the configuration, restores both bounds, and leaves the fresh entry as the
unique, most recently used binding of `key`. -/
theorem set_spec (c : LRUCache) (key : String) (data : List Nat) (now : Nat)
    (hwf : c.wf) (hmax : 1 ≤ c.maxEntries) (hsize : data.length ≤ c.maxSizeBytes) :
    ((c.set key data now).1).wf ∧
    (c.set key data now).2 = true ∧
    ((c.set key data now).1).maxSizeBytes = c.maxSizeBytes ∧
    ((c.set key data now).1).maxEntries = c.maxEntries ∧
    ((c.set key data now).1).ttlSeconds = c.ttlSeconds ∧
    sumSizes ((c.set key data now).1).cache ≤ c.maxSizeBytes ∧
    ((c.set key data now).1).cache.length ≤ c.maxEntries ∧
    ∃ pre,
      ((c.set key data now).1).cache =
        pre ++ [(key, ⟨data, now + c.ttlSeconds * 1000, data.length, now⟩)] ∧
      key ∉ pre.map Prod.fst := by
  have hgt : ¬ data.length > c.maxSizeBytes := by omega
  -- the state after the delete-if-present step
  set c1 : LRUCache :=
    if (mapGet c.cache key).isSome then (c.del key).1 else c with hc1
  have hwf1 : c1.wf := by
    rw [hc1]; split
    · exact del_wf key hwf
    · exact hwf
  have hfields1 : c1.maxSizeBytes = c.maxSizeBytes ∧ c1.maxEntries = c.maxEntries ∧
      c1.ttlSeconds = c.ttlSeconds := by
    rw [hc1]; split
    · exact del_fields c key
    · exact ⟨rfl, rfl, rfl⟩
  have hnot1 : key ∉ c1.cache.map Prod.fst := by
    rw [hc1]; split
    case isTrue hs =>
        obtain ⟨e, he⟩ := Option.isSome_iff_exists.mp hs
        rw [del_cache_of_some he]
        exact not_mem_keys_mapDelete hwf.2
    case isFalse hs =>
        have : mapGet c.cache key = none := by
          cases hg : mapGet c.cache key with
          | none => rfl
          | some e => rw [hg] at hs; simp at hs
        exact (mapGet_eq_none_iff c.cache key).mp this
  have hmax1 : 1 ≤ c1.maxEntries := by rw [hfields1.2.1]; exact hmax
  have hsize1 : data.length ≤ c1.maxSizeBytes := by rw [hfields1.1]; exact hsize
  have hloop := evictLoop_spec data.length (c1.cache.length + 1) c1 hwf1 hmax1
    hsize1 (by omega)
  set c2 : LRUCache := evictLoop data.length (c1.cache.length + 1) c1 with hc2
  have hnot2 : key ∉ c2.cache.map Prod.fst := fun hk => hnot1 (hloop.2.2.2.2.2 key hk)
  have hset : c.set key data now =
      ({ c2 with
          cache := mapSet c2.cache key
            ⟨data, now + c2.ttlSeconds * 1000, data.length, now⟩
          currentSizeBytes := c2.currentSizeBytes + data.length }, true) := by
    simp only [set, if_neg hgt, hc1, hc2]
  have httl : c2.ttlSeconds = c.ttlSeconds := by
    rw [hloop.2.2.2.2.1, hfields1.2.2]
  have hmapset : mapSet c2.cache key
      ⟨data, now + c2.ttlSeconds * 1000, data.length, now⟩ =
      c2.cache ++ [(key, ⟨data, now + c.ttlSeconds * 1000, data.length, now⟩)] := by
    rw [httl]
    exact mapSet_of_not_mem _ hnot2
  -- both loop guards are false on exit
  have hguard : ¬ (c2.currentSizeBytes + (data.length : Int) > (c2.maxSizeBytes : Int)) ∧
      ¬ (c2.cache.length ≥ c2.maxEntries) := by
    have := hloop.2.1
    unfold needsEvict at this
    simp at this
    omega
  have hwf2 : c2.wf := hloop.1
  rw [hset, hmapset]
  refine ⟨⟨?_, ?_⟩, rfl, ?_, ?_, ?_, ?_, ?_, c2.cache, rfl, hnot2⟩
  · show c2.currentSizeBytes + (data.length : Int) = _
    simp [sumSizes_append, sumSizes_cons, sumSizes_nil, hwf2.1]
  · show (List.map Prod.fst (c2.cache ++ _)).Nodup
    rw [List.map_append, List.nodup_append]
    exact ⟨hwf2.2, List.nodup_singleton key, by
      intro a ha hb
      simp at hb
      exact hnot2 (hb ▸ ha)⟩
  · show c2.maxSizeBytes = c.maxSizeBytes
    rw [hloop.2.2.1, hfields1.1]
  · show c2.maxEntries = c.maxEntries
    rw [hloop.2.2.2.1, hfields1.2.1]
  · show c2.ttlSeconds = c.ttlSeconds
    rw [httl]
  · show sumSizes (c2.cache ++ _) ≤ c.maxSizeBytes
    have hc2sum : c2.currentSizeBytes = (sumSizes c2.cache : Int) := hwf2.1
    have hmb : c2.maxSizeBytes = c.maxSizeBytes := by rw [hloop.2.2.1, hfields1.1]
    simp [sumSizes_append, sumSizes_cons, sumSizes_nil]
    omega
  · show (c2.cache ++ _).length ≤ c.maxEntries
    have hme : c2.maxEntries = c.maxEntries := by rw [hloop.2.2.2.1, hfields1.2.1]
    simp only [List.length_append, List.length_cons, List.length_nil]
    omega

/-- The method `set` rejects an item larger than the whole cache budget without any
mutation. -/
theorem set_of_too_big {c : LRUCache} {key : String} {data : List Nat} {now : Nat}
    (h : data.length > c.maxSizeBytes) : c.set key data now = (c, false) := by
  simp [set, h]

/-- The method `get` preserves well-formedness, the configuration, and both resource
quantities (a hit reinserts the same entry; expiry deletes). -/
theorem get_spec (c : LRUCache) (key : String) (now : Nat) (hwf : c.wf) :
    ((c.get key now).2).wf ∧
    ((c.get key now).2).maxSizeBytes = c.maxSizeBytes ∧
    ((c.get key now).2).maxEntries = c.maxEntries ∧
    ((c.get key now).2).ttlSeconds = c.ttlSeconds ∧
    sumSizes ((c.get key now).2).cache ≤ sumSizes c.cache ∧
    ((c.get key now).2).cache.length ≤ c.cache.length := by
  unfold get
  cases hg : mapGet c.cache key with
  | none => exact ⟨hwf, rfl, rfl, rfl, le_refl _, le_refl _⟩
  | some entry =>
      dsimp only
      by_cases he : now ≥ entry.expiresAt
      · rw [if_pos he]
        exact ⟨del_wf key hwf, (del_fields c key).1, (del_fields c key).2.1,
          (del_fields c key).2.2, del_sumSizes_le c key, del_length_le c key⟩
      · rw [if_neg he]
        have hnot : key ∉ (mapDelete c.cache key).map Prod.fst :=
          not_mem_keys_mapDelete hwf.2
        have hms := mapSet_of_not_mem { entry with accessedAt := now } hnot
        have hsum := sumSizes_mapDelete hg
        have hlen := length_mapDelete hg
        refine ⟨⟨?_, ?_⟩, rfl, rfl, rfl, ?_, ?_⟩
        · show c.currentSizeBytes = _
          rw [hwf.1]
          simp [hms, sumSizes_append, sumSizes_cons, sumSizes_nil]
          omega
        · show (List.map Prod.fst (mapSet _ _ _)).Nodup
          rw [hms, List.map_append, List.nodup_append]
          refine ⟨nodup_mapDelete hwf.2, List.nodup_singleton key, ?_⟩
          intro a ha hb
          simp at hb
          exact hnot (hb ▸ ha)
        · show sumSizes (mapSet _ _ _) ≤ _
          rw [hms]
          simp [sumSizes_append, sumSizes_cons, sumSizes_nil]
          omega
        · show (mapSet _ _ _).length ≤ _
          rw [hms]
          simp
          omega

/-- A fold of `delete` over any key list preserves well-formedness, the
configuration, and both resource bounds. -/
theorem foldl_del_spec (ks : List String) (c : LRUCache) (hwf : c.wf) :
    (ks.foldl (fun acc k => (acc.del k).1) c).wf ∧
    (ks.foldl (fun acc k => (acc.del k).1) c).maxSizeBytes = c.maxSizeBytes ∧
    (ks.foldl (fun acc k => (acc.del k).1) c).maxEntries = c.maxEntries ∧
    (ks.foldl (fun acc k => (acc.del k).1) c).ttlSeconds = c.ttlSeconds ∧
    sumSizes ((ks.foldl (fun acc k => (acc.del k).1) c)).cache ≤ sumSizes c.cache ∧
    (ks.foldl (fun acc k => (acc.del k).1) c).cache.length ≤ c.cache.length := by
  induction ks generalizing c with
  | nil => exact ⟨hwf, rfl, rfl, rfl, le_refl _, le_refl _⟩
  | cons k ks ih =>
      have h1 := ih (c.del k).1 (del_wf k hwf)
      have hf := del_fields c k
      simp only [List.foldl_cons]
      exact ⟨h1.1, h1.2.1.trans hf.1, h1.2.2.1.trans hf.2.1, h1.2.2.2.1.trans hf.2.2,
        h1.2.2.2.2.1.trans (del_sumSizes_le c k),
        h1.2.2.2.2.2.trans (del_length_le c k)⟩

theorem clearExpired_spec (c : LRUCache) (now : Nat) (hwf : c.wf) :
    ((c.clearExpired now).1).wf ∧
    ((c.clearExpired now).1).maxSizeBytes = c.maxSizeBytes ∧
    ((c.clearExpired now).1).maxEntries = c.maxEntries ∧
    ((c.clearExpired now).1).ttlSeconds = c.ttlSeconds ∧
    sumSizes ((c.clearExpired now).1).cache ≤ sumSizes c.cache ∧
    ((c.clearExpired now).1).cache.length ≤ c.cache.length := by
  unfold clearExpired
  exact foldl_del_spec _ c hwf

theorem clear_spec (c : LRUCache) :
    (c.clear).wf ∧
    (c.clear).maxSizeBytes = c.maxSizeBytes ∧
    (c.clear).maxEntries = c.maxEntries ∧
    (c.clear).ttlSeconds = c.ttlSeconds ∧
    sumSizes (c.clear).cache = 0 ∧
    (c.clear).cache.length = 0 := by
  constructor
  · exact ⟨rfl, List.nodup_nil⟩
  · exact ⟨rfl, rfl, rfl, rfl, rfl⟩

end LRUCache

/-- Any single operation preserves well-formedness, the configuration, and
both resource bounds. -/
theorem applyOp_spec (c : LRUCache) (op : CacheOp) (hwf : c.wf)
    (hmax : 1 ≤ c.maxEntries) (hsum : sumSizes c.cache ≤ c.maxSizeBytes)
    (hlen : c.cache.length ≤ c.maxEntries) :
    (applyOp c op).wf ∧
    (applyOp c op).maxSizeBytes = c.maxSizeBytes ∧
    (applyOp c op).maxEntries = c.maxEntries ∧
    (applyOp c op).ttlSeconds = c.ttlSeconds ∧
    sumSizes (applyOp c op).cache ≤ c.maxSizeBytes ∧
    (applyOp c op).cache.length ≤ c.maxEntries := by
  cases op with
  | get key now =>
      have h := LRUCache.get_spec c key now hwf
      exact ⟨h.1, h.2.1, h.2.2.1, h.2.2.2.1, h.2.2.2.2.1.trans hsum,
        h.2.2.2.2.2.trans hlen⟩
  | set key data now =>
      by_cases hd : data.length > c.maxSizeBytes
      · have he : applyOp c (CacheOp.set key data now) = c := by
          show (c.set key data now).1 = c
          rw [LRUCache.set_of_too_big hd]
        rw [he]
        exact ⟨hwf, rfl, rfl, rfl, hsum, hlen⟩
      · have h := LRUCache.set_spec c key data now hwf hmax (by omega)
        exact ⟨h.1, h.2.2.1, h.2.2.2.1, h.2.2.2.2.1, h.2.2.2.2.2.1, h.2.2.2.2.2.2.1⟩
  | del key =>
      have hf := LRUCache.del_fields c key
      exact ⟨LRUCache.del_wf key hwf, hf.1, hf.2.1, hf.2.2,
        (LRUCache.del_sumSizes_le c key).trans hsum,
        (LRUCache.del_length_le c key).trans hlen⟩
  | clearExpired now =>
      have h := LRUCache.clearExpired_spec c now hwf
      exact ⟨h.1, h.2.1, h.2.2.1, h.2.2.2.1, h.2.2.2.2.1.trans hsum,
        h.2.2.2.2.2.trans hlen⟩
  | clear =>
      have h := LRUCache.clear_spec c
      refine ⟨h.1, h.2.1, h.2.2.1, h.2.2.2.1, ?_, ?_⟩
      · show sumSizes (c.clear).cache ≤ c.maxSizeBytes
        rw [h.2.2.2.2.1]
        exact Nat.zero_le _
      · show (c.clear).cache.length ≤ c.maxEntries
        rw [h.2.2.2.2.2]
        exact Nat.zero_le _

/-- Any sequence of operations preserves well-formedness, the configuration,
and both resource bounds. -/
theorem runOps_spec (ops : List CacheOp) (c : LRUCache) (hwf : c.wf)
    (hmax : 1 ≤ c.maxEntries) (hsum : sumSizes c.cache ≤ c.maxSizeBytes)
    (hlen : c.cache.length ≤ c.maxEntries) :
    (runOps ops c).wf ∧
    (runOps ops c).maxSizeBytes = c.maxSizeBytes ∧
    (runOps ops c).maxEntries = c.maxEntries ∧
    (runOps ops c).ttlSeconds = c.ttlSeconds ∧
    sumSizes (runOps ops c).cache ≤ c.maxSizeBytes ∧
    (runOps ops c).cache.length ≤ c.maxEntries := by
  induction ops generalizing c with
  | nil => exact ⟨hwf, rfl, rfl, rfl, hsum, hlen⟩
  | cons op ops ih =>
      have h1 := applyOp_spec c op hwf hmax hsum hlen
      have h2 := ih (applyOp c op) h1.1 (by rw [h1.2.2.1]; exact hmax)
        (by rw [h1.2.1]; exact h1.2.2.2.2.1) (by rw [h1.2.2.1]; exact h1.2.2.2.2.2)
      simp only [runOps, List.foldl_cons]
      refine ⟨h2.1, h2.2.1.trans h1.2.1, h2.2.2.1.trans h1.2.2.1,
        h2.2.2.2.1.trans h1.2.2.2.1, ?_, ?_⟩
      · have := h2.2.2.2.2.1
        rw [h1.2.1] at this
        exact this
      · have := h2.2.2.2.2.2
        rw [h1.2.2.1] at this
        exact this

/-! ## Claims about the LRU cache -/

/-- C1: the cache evicts strictly least-recently-used first and a successful
`get` promotes its entry: with `maxEntries = 2` and a non-binding size budget,
`set(A), set(B), set(C)` leaves exactly `{B, C}` live (`A` evicted), and after
a successful `get(B)`, `set(D)` evicts `C` — not the promoted `B` — leaving
exactly `{B, D}` live. -/
theorem C1_lru_eviction_order :
    (runOps [.set "A" [1] 0, .set "B" [2] 0, .set "C" [3] 0]
      (LRUCache.mkCache 1000000 2 100)).keys = ["B", "C"] ∧
    ((runOps [.set "A" [1] 0, .set "B" [2] 0, .set "C" [3] 0]
      (LRUCache.mkCache 1000000 2 100)).get "B" 5).1 = some [2] ∧
    (runOps [.get "B" 5, .set "D" [4] 5]
      (runOps [.set "A" [1] 0, .set "B" [2] 0, .set "C" [3] 0]
        (LRUCache.mkCache 1000000 2 100))).keys = ["B", "D"] := by
  decide

/-- C2: for every sequence of cache operations on a cache constructed with
`maxEntries ≥ 1`, after every operation the sum of the `size` fields of the
live entries is ≤ `maxSizeBytes` and the number of live entries is
≤ `maxEntries` (every prefix of a sequence being itself a sequence, this
covers every intermediate state). -/
theorem C2_cache_bounds (maxSizeBytes maxEntries ttlSeconds : Nat)
    (hmax : 1 ≤ maxEntries) (ops : List CacheOp) :
    sumSizes (runOps ops (LRUCache.mkCache maxSizeBytes maxEntries ttlSeconds)).cache
      ≤ maxSizeBytes ∧
    (runOps ops (LRUCache.mkCache maxSizeBytes maxEntries ttlSeconds)).cache.length
      ≤ maxEntries := by
  have h := runOps_spec ops (LRUCache.mkCache maxSizeBytes maxEntries ttlSeconds)
    ⟨rfl, List.nodup_nil⟩ hmax (Nat.zero_le _) (Nat.zero_le _)
  exact ⟨h.2.2.2.2.1, h.2.2.2.2.2⟩

theorem C2_cache_bounds_witness :
    1 ≤ 2 ∧
    (sumSizes (runOps [.set "a" [1, 2] 0, .set "b" [3] 1, .get "a" 2, .del "b",
        .clearExpired 3, .clear]
      (LRUCache.mkCache 10 2 5)).cache ≤ 10 ∧
    (runOps [.set "a" [1, 2] 0, .set "b" [3] 1, .get "a" 2, .del "b",
        .clearExpired 3, .clear]
      (LRUCache.mkCache 10 2 5)).cache.length ≤ 2) :=
  ⟨by decide, C2_cache_bounds 10 2 5 (by decide)
    [.set "a" [1, 2] 0, .set "b" [3] 1, .get "a" 2, .del "b",
     .clearExpired 3, .clear]⟩

/-- C6: an entry inserted by `set` at time `t` with TTL `T = ttlSeconds` is
returned by `get` at every time strictly before `t + T·1000` ms, and at every
time `≥ t + T·1000` ms `get` returns `null` and deletes the entry as a side
effect — an expired entry is never returned. -/
theorem C6_ttl_expiry (c : LRUCache) (key : String) (data : List Nat)
    (t t₁ t₂ : Nat) (hwf : c.wf) (hmax : 1 ≤ c.maxEntries)
    (hsize : data.length ≤ c.maxSizeBytes)
    (h1 : t₁ < t + c.ttlSeconds * 1000) (h2 : t + c.ttlSeconds * 1000 ≤ t₂) :
    (((c.set key data t).1).get key t₁).1 = some data ∧
    (((c.set key data t).1).get key t₂).1 = none ∧
    key ∉ ((((c.set key data t).1).get key t₂).2).keys := by
  have hs := LRUCache.set_spec c key data t hwf hmax hsize
  obtain ⟨pre, hcache, hpre⟩ := hs.2.2.2.2.2.2.2
  have hwf' : ((c.set key data t).1).wf := hs.1
  have hg : mapGet ((c.set key data t).1).cache key =
      some ⟨data, t + c.ttlSeconds * 1000, data.length, t⟩ := by
    rw [hcache]
    exact mapGet_append_self _ hpre
  refine ⟨?_, ?_, ?_⟩
  · unfold LRUCache.get
    rw [hg]
    dsimp only
    rw [if_neg (by omega)]
  · unfold LRUCache.get
    rw [hg]
    dsimp only
    rw [if_pos (by omega)]
  · unfold LRUCache.get
    rw [hg]
    dsimp only
    rw [if_pos (by omega)]
    show key ∉ ((((c.set key data t).1).del key).1).keys
    unfold LRUCache.keys
    rw [LRUCache.del_cache_of_some hg]
    exact not_mem_keys_mapDelete hwf'.2

theorem C6_ttl_expiry_witness :
    (LRUCache.mkCache 100 2 1).wf ∧
    1 ≤ (LRUCache.mkCache 100 2 1).maxEntries ∧
    [7, 8].length ≤ (LRUCache.mkCache 100 2 1).maxSizeBytes ∧
    999 < 0 + (LRUCache.mkCache 100 2 1).ttlSeconds * 1000 ∧
    0 + (LRUCache.mkCache 100 2 1).ttlSeconds * 1000 ≤ 1000 ∧
    ((((LRUCache.mkCache 100 2 1).set "k" [7, 8] 0).1.get "k" 999).1 = some [7, 8] ∧
     (((LRUCache.mkCache 100 2 1).set "k" [7, 8] 0).1.get "k" 1000).1 = none ∧
     "k" ∉ ((((LRUCache.mkCache 100 2 1).set "k" [7, 8] 0).1.get "k" 1000).2).keys) :=
  ⟨by decide, by decide, by decide, by decide, by decide,
    C6_ttl_expiry (LRUCache.mkCache 100 2 1) "k" [7, 8] 0 999 1000 (by decide)
      (by decide) (by decide) (by decide) (by decide)⟩

/-- C10: `set` terminates on every input: an oversized payload is rejected up
front with no mutation; `evictLRU` removes exactly one entry per iteration of
the eviction loop; and under the accounting invariant with `maxEntries ≥ 1`,
the loop guard becomes false within as many iterations as there are live
entries (any fuel above that count suffices), after which `set` inserts the
entry and returns `true`. -/
theorem C10_set_terminates (c : LRUCache) (key : String) (data : List Nat)
    (now : Nat) (hwf : c.wf) (hmax : 1 ≤ c.maxEntries) :
    (data.length > c.maxSizeBytes → c.set key data now = (c, false)) ∧
    (∀ d : LRUCache, d.cache ≠ [] → d.evictLRU.cache.length + 1 = d.cache.length) ∧
    (data.length ≤ c.maxSizeBytes →
      (c.set key data now).2 = true ∧
      ∀ fuel,
        (if (mapGet c.cache key).isSome then (c.del key).1 else c).cache.length < fuel →
        LRUCache.needsEvict
          (LRUCache.evictLoop data.length fuel
            (if (mapGet c.cache key).isSome then (c.del key).1 else c))
          data.length = false) := by
  refine ⟨fun h => LRUCache.set_of_too_big h,
    fun d hd => LRUCache.evictLRU_length hd, fun hsize => ?_⟩
  refine ⟨(LRUCache.set_spec c key data now hwf hmax hsize).2.1, ?_⟩
  intro fuel hfuel
  have hwf1 : (if (mapGet c.cache key).isSome then (c.del key).1 else c).wf := by
    split
    · exact LRUCache.del_wf key hwf
    · exact hwf
  have hf1 : (if (mapGet c.cache key).isSome then (c.del key).1 else c).maxSizeBytes
        = c.maxSizeBytes ∧
      (if (mapGet c.cache key).isSome then (c.del key).1 else c).maxEntries
        = c.maxEntries ∧
      (if (mapGet c.cache key).isSome then (c.del key).1 else c).ttlSeconds
        = c.ttlSeconds := by
    split
    · exact LRUCache.del_fields c key
    · exact ⟨rfl, rfl, rfl⟩
  exact (LRUCache.evictLoop_spec data.length fuel _ hwf1
    (by rw [hf1.2.1]; exact hmax) (by rw [hf1.1]; exact hsize) hfuel).2.1

theorem C10_set_terminates_witness :
    (LRUCache.mkCache 10 1 5).wf ∧
    1 ≤ (LRUCache.mkCache 10 1 5).maxEntries ∧
    (([1, 2, 3] : List Nat).length > (LRUCache.mkCache 10 1 5).maxSizeBytes →
      (LRUCache.mkCache 10 1 5).set "k" [1, 2, 3] 0 = (LRUCache.mkCache 10 1 5, false)) ∧
    (∀ d : LRUCache, d.cache ≠ [] → d.evictLRU.cache.length + 1 = d.cache.length) ∧
    (([1, 2, 3] : List Nat).length ≤ (LRUCache.mkCache 10 1 5).maxSizeBytes →
      ((LRUCache.mkCache 10 1 5).set "k" [1, 2, 3] 0).2 = true ∧
      ∀ fuel,
        (if (mapGet (LRUCache.mkCache 10 1 5).cache "k").isSome
            then ((LRUCache.mkCache 10 1 5).del "k").1
            else LRUCache.mkCache 10 1 5).cache.length < fuel →
        LRUCache.needsEvict
          (LRUCache.evictLoop ([1, 2, 3] : List Nat).length fuel
            (if (mapGet (LRUCache.mkCache 10 1 5).cache "k").isSome
                then ((LRUCache.mkCache 10 1 5).del "k").1
                else LRUCache.mkCache 10 1 5))
          ([1, 2, 3] : List Nat).length = false) :=
  ⟨by decide, by decide,
    (C10_set_terminates (LRUCache.mkCache 10 1 5) "k" [1, 2, 3] 0
      (by decide) (by decide)).1,
    (C10_set_terminates (LRUCache.mkCache 10 1 5) "k" [1, 2, 3] 0
      (by decide) (by decide)).2.1,
    (C10_set_terminates (LRUCache.mkCache 10 1 5) "k" [1, 2, 3] 0
      (by decide) (by decide)).2.2⟩

/-! ## Claims about the GitHub client -/

/-- C3 (refuted — evaluation of the code at the failing input): the claim
says a non-retryable, non-404 failure such as 403 makes `fetchFile` fail
immediately with no further attempts.  In the source, the
`throw lastError` for a non-retryable status sits inside the `try` block, so
the function's own `catch` — which only rethrows `FileNotFoundError` despite
its comment "Don't retry FileNotFoundError or non-retryable errors" —
swallows it and retries.  Against an origin that always answers 403 with
`maxRetries = 3`, the code makes 4 attempts and sleeps the full backoff
schedule before failing with the `GitHubAPIError` class. -/
theorem C3_nonretryable_status_is_retried :
    ((⟨"https://raw.example", "ua", none, 3, 1000, 30000⟩ : GitHubClient).fetchFile
      (fun _ => .status 403) "p").attempts = 4 ∧
    ((⟨"https://raw.example", "ua", none, 3, 1000, 30000⟩ : GitHubClient).fetchFile
      (fun _ => .status 403) "p").delays = [1000, 2000, 4000] ∧
    ((⟨"https://raw.example", "ua", none, 3, 1000, 30000⟩ : GitHubClient).fetchFile
      (fun _ => .status 403) "p").result =
      .error (.gitHubAPIError "p" 403 502) :=
  ⟨rfl, rfl, rfl⟩

/-- Retry-loop invariant behind C4: against an origin whose every answer is a
retryable status, the loop from `attempt` with `remaining` attempts left
issues `remaining + 1` further attempts, sleeps
`calculateBackoff attempt, calculateBackoff (attempt+1), …` between them, and
ends in the `GitHubAPIError` built from the final status. -/
theorem fetchLoop_retryable (gc : GitHubClient) (origin : Nat → OriginResponse)
    (path : String)
    (h : ∀ n, ∃ code, origin n = .status code ∧ gc.isRetryableError code = true) :
    ∀ remaining attempt,
      (GitHubClient.fetchLoop gc origin path attempt remaining).attempts =
        attempt + remaining + 1 ∧
      (GitHubClient.fetchLoop gc origin path attempt remaining).delays =
        (List.range remaining).map (fun i => gc.calculateBackoff (attempt + i)) ∧
      ∃ code, gc.isRetryableError code = true ∧
        (GitHubClient.fetchLoop gc origin path attempt remaining).result =
          .error (.gitHubAPIError path code 502) := by
  intro remaining
  induction remaining with
  | zero =>
      intro attempt
      obtain ⟨code, hc, hr⟩ := h attempt
      have hcode : code ≥ 500 ∨ code = 429 := by
        unfold GitHubClient.isRetryableError at hr
        simpa using hr
      have h404 : (code == 404) = false := by
        simp
        omega
      have hstep : GitHubClient.fetchLoop gc origin path attempt 0 =
          ⟨.error (.gitHubAPIError path code 502), attempt + 1, []⟩ := by
        unfold GitHubClient.fetchLoop
        rw [hc]
        simp [h404]
      rw [hstep]
      exact ⟨rfl, rfl, code, hr, rfl⟩
  | succ remaining ih =>
      intro attempt
      obtain ⟨code, hc, hr⟩ := h attempt
      have hcode : code ≥ 500 ∨ code = 429 := by
        unfold GitHubClient.isRetryableError at hr
        simpa using hr
      have h404 : (code == 404) = false := by
        simp
        omega
      obtain ⟨ha, hd, code', hr', hres⟩ := ih (attempt + 1)
      have hstep : GitHubClient.fetchLoop gc origin path attempt (remaining + 1) =
          ⟨(GitHubClient.fetchLoop gc origin path (attempt + 1) remaining).result,
           (GitHubClient.fetchLoop gc origin path (attempt + 1) remaining).attempts,
           gc.calculateBackoff attempt ::
             (GitHubClient.fetchLoop gc origin path (attempt + 1) remaining).delays⟩ := by
        conv_lhs => unfold GitHubClient.fetchLoop
        rw [hc]
        simp [h404, hr]
      have hdelay : (List.range (remaining + 1)).map
            (fun i => gc.calculateBackoff (attempt + i)) =
          gc.calculateBackoff attempt :: (List.range remaining).map
            (fun i => gc.calculateBackoff (attempt + 1 + i)) := by
        rw [List.range_succ_eq_map, List.map_cons, List.map_map, Nat.add_zero]
        congr 1
        apply List.map_congr_left
        intro i _
        simp only [Function.comp_apply]
        congr 1
        omega
      rw [hstep]
      refine ⟨?_, ?_, code', hr', hres⟩
      · show (GitHubClient.fetchLoop gc origin path (attempt + 1) remaining).attempts
            = attempt + (remaining + 1) + 1
        rw [ha]
        omega
      · show gc.calculateBackoff attempt ::
            (GitHubClient.fetchLoop gc origin path (attempt + 1) remaining).delays = _
        rw [hd, hdelay]

/-- C4: against an origin returning a retryable status (≥ 500 or 429) on
every attempt, `fetchFile` makes exactly `maxRetries + 1` attempts, sleeping
`retryDelay · 2^attempt` ms between consecutive attempts, then fails with the
`GitHubAPIError` class. -/
theorem C4_retry_backoff_exhaustion (gc : GitHubClient)
    (origin : Nat → OriginResponse) (filePath : String)
    (h : ∀ n, ∃ code, origin n = .status code ∧ gc.isRetryableError code = true) :
    (gc.fetchFile origin filePath).attempts = gc.maxRetries + 1 ∧
    (gc.fetchFile origin filePath).delays =
      (List.range gc.maxRetries).map (fun i => gc.retryDelay * 2 ^ i) ∧
    ∃ e, (gc.fetchFile origin filePath).result = .error e ∧
      e.isGitHubAPIError = true := by
  obtain ⟨ha, hd, code, hr, hres⟩ :=
    fetchLoop_retryable gc origin (GitHubClient.normalizePath filePath) h
      gc.maxRetries 0
  unfold GitHubClient.fetchFile
  refine ⟨by rw [ha]; omega, ?_, ?_⟩
  · rw [hd]
    apply List.map_congr_left
    intro i _
    simp [GitHubClient.calculateBackoff]
  · exact ⟨_, hres, rfl⟩

theorem C4_retry_backoff_exhaustion_witness :
    ((⟨"https://raw.example", "ua", none, 3, 1000, 30000⟩ : GitHubClient).fetchFile
      (fun _ => .status 500) "p").attempts =
      (⟨"https://raw.example", "ua", none, 3, 1000, 30000⟩ : GitHubClient).maxRetries + 1 ∧
    ((⟨"https://raw.example", "ua", none, 3, 1000, 30000⟩ : GitHubClient).fetchFile
      (fun _ => .status 500) "p").delays =
      (List.range
        (⟨"https://raw.example", "ua", none, 3, 1000, 30000⟩ : GitHubClient).maxRetries).map
        (fun i =>
          (⟨"https://raw.example", "ua", none, 3, 1000, 30000⟩ : GitHubClient).retryDelay
            * 2 ^ i) ∧
    ∃ e,
      ((⟨"https://raw.example", "ua", none, 3, 1000, 30000⟩ : GitHubClient).fetchFile
        (fun _ => .status 500) "p").result = .error e ∧
      e.isGitHubAPIError = true :=
  C4_retry_backoff_exhaustion
    (⟨"https://raw.example", "ua", none, 3, 1000, 30000⟩ : GitHubClient)
    (fun _ => .status 500) "p" (fun _ => ⟨500, rfl, by decide⟩)

/-- C5: if the origin answers 404 on the first attempt, `fetchFile` makes
exactly one attempt, performs no backoff sleep, and fails with
`FileNotFoundError` — regardless of how many retry attempts remain. -/
theorem C5_notfound_short_circuits (gc : GitHubClient)
    (origin : Nat → OriginResponse) (filePath : String)
    (h : origin 0 = .status 404) :
    (gc.fetchFile origin filePath).result =
      .error (.fileNotFoundError (GitHubClient.normalizePath filePath)) ∧
    (gc.fetchFile origin filePath).attempts = 1 ∧
    (gc.fetchFile origin filePath).delays = [] := by
  unfold GitHubClient.fetchFile GitHubClient.fetchLoop
  rw [h]
  simp

theorem C5_notfound_short_circuits_witness :
    (fun _ : Nat => OriginResponse.status 404) 0 = OriginResponse.status 404 ∧
    (((⟨"https://raw.example", "ua", none, 3, 1000, 30000⟩ : GitHubClient).fetchFile
        (fun _ => .status 404) "/a/b").result =
      .error (.fileNotFoundError
        (GitHubClient.normalizePath "/a/b")) ∧
    ((⟨"https://raw.example", "ua", none, 3, 1000, 30000⟩ : GitHubClient).fetchFile
        (fun _ => .status 404) "/a/b").attempts = 1 ∧
    ((⟨"https://raw.example", "ua", none, 3, 1000, 30000⟩ : GitHubClient).fetchFile
        (fun _ => .status 404) "/a/b").delays = []) :=
  ⟨rfl, C5_notfound_short_circuits
    (⟨"https://raw.example", "ua", none, 3, 1000, 30000⟩ : GitHubClient)
    (fun _ => .status 404) "/a/b" rfl⟩

/-! ## Claims about the compression negotiator -/

/-- The function `compressContent` coincides with the spec-modelled negotiate algorithm:
first beneficial candidate in the fixed order over the accepted encodings. -/
theorem compressContent_characterization (z : Compressors) (buffer : List Nat)
    (acceptEncoding : String) :
    ((compressContent z buffer acceptEncoding).encoding,
     (compressContent z buffer acceptEncoding).buffer) =
      (match firstBeneficial buffer.length (candidates z buffer acceptEncoding) with
       | some (name, compressed) => (some name, some compressed)
       | none => (none, none)) := by
  unfold compressContent candidates
  by_cases hbr : strIncludes (strToLower acceptEncoding) "br" <;>
  by_cases hgz : strIncludes (strToLower acceptEncoding) "gzip" <;>
  by_cases hdf : strIncludes (strToLower acceptEncoding) "deflate" <;>
  simp only [hbr, hgz, hdf, if_true, if_false] <;>
  cases z.brotli buffer <;> cases z.gzip buffer <;> cases z.deflate buffer <;>
  simp [firstBeneficial] <;> split_ifs <;> simp_all [firstBeneficial]

/-- A winning candidate of `firstBeneficial` is strictly smaller than the
original. -/
theorem firstBeneficial_lt (orig : Nat) (l : List (String × Option (List Nat)))
    (name : String) (compressed : List Nat)
    (h : firstBeneficial orig l = some (name, compressed)) :
    compressed.length < orig := by
  induction l with
  | nil => simp [firstBeneficial] at h
  | cons p rest ih =>
      obtain ⟨n, r⟩ := p
      cases r with
      | none =>
          simp only [firstBeneficial] at h
          exact ih h
      | some cmp =>
          simp only [firstBeneficial] at h
          by_cases hlt : cmp.length < orig
          · rw [if_pos hlt] at h
            cases h
            exact hlt
          · rw [if_neg hlt] at h
            exact ih h

/-- If no candidate shrinks the input, `firstBeneficial` declines. -/
theorem firstBeneficial_none (orig : Nat) (l : List (String × Option (List Nat)))
    (h : ∀ p ∈ l, ∀ c, p.2 = some c → orig ≤ c.length) :
    firstBeneficial orig l = none := by
  induction l with
  | nil => rfl
  | cons p rest ih =>
      obtain ⟨n, r⟩ := p
      cases r with
      | none =>
          simp only [firstBeneficial]
          exact ih (fun q hq => h q (List.mem_cons_of_mem _ hq))
      | some cmp =>
          have hle := h (n, some cmp) (List.mem_cons_self _ _) cmp rfl
          simp only [firstBeneficial]
          rw [if_neg (by omega)]
          exact ih (fun q hq => h q (List.mem_cons_of_mem _ hq))

/-- A pair is a candidate exactly when it is one of the three codec entries
and its token occurs in the accepted encodings. -/
theorem mem_candidates (z : Compressors) (buffer : List Nat)
    (acceptEncoding : String) (p : String × Option (List Nat)) :
    p ∈ candidates z buffer acceptEncoding ↔
      (p = ("br", z.brotli buffer) ∧
        strIncludes (strToLower acceptEncoding) "br" = true) ∨
      (p = ("gzip", z.gzip buffer) ∧
        strIncludes (strToLower acceptEncoding) "gzip" = true) ∨
      (p = ("deflate", z.deflate buffer) ∧
        strIncludes (strToLower acceptEncoding) "deflate" = true) := by
  unfold candidates
  dsimp only
  by_cases h1 : strIncludes (strToLower acceptEncoding) "br" <;>
  by_cases h2 : strIncludes (strToLower acceptEncoding) "gzip" <;>
  by_cases h3 : strIncludes (strToLower acceptEncoding) "deflate" <;>
  simp [h1, h2, h3, or_assoc]

/-- C7: `compressContent` never returns a non-none encoding whose payload is
as large as the input — `encoding ≠ none` only with a strictly smaller
compressed buffer — and when no accepted algorithm can shrink the input
(each codec whose token occurs in the accepted encodings either fails or
produces nothing smaller) it returns encoding none and the served payload is
the original buffer. -/
theorem C7_compression_beneficial_only (z : Compressors) (buffer : List Nat)
    (acceptEncoding : String) :
    (∀ enc, (compressContent z buffer acceptEncoding).encoding = some enc →
      ∃ compressed,
        (compressContent z buffer acceptEncoding).buffer = some compressed ∧
        compressed.length < buffer.length) ∧
    (((strIncludes (strToLower acceptEncoding) "br" = true →
        ∀ c, z.brotli buffer = some c → buffer.length ≤ c.length) ∧
      (strIncludes (strToLower acceptEncoding) "gzip" = true →
        ∀ c, z.gzip buffer = some c → buffer.length ≤ c.length) ∧
      (strIncludes (strToLower acceptEncoding) "deflate" = true →
        ∀ c, z.deflate buffer = some c → buffer.length ≤ c.length)) →
      (compressContent z buffer acceptEncoding).encoding = none ∧
      (compressContent z buffer acceptEncoding).effectivePayload buffer = buffer) := by
  have hchar := compressContent_characterization z buffer acceptEncoding
  constructor
  · intro enc henc
    cases hfb : firstBeneficial buffer.length (candidates z buffer acceptEncoding) with
    | none =>
        rw [hfb] at hchar
        simp [Prod.ext_iff] at hchar
        rw [hchar.1] at henc
        cases henc
    | some p =>
        obtain ⟨name, compressed⟩ := p
        rw [hfb] at hchar
        simp [Prod.ext_iff] at hchar
        exact ⟨compressed, hchar.2, firstBeneficial_lt _ _ _ _ hfb⟩
  · intro hns
    have hnone :
        firstBeneficial buffer.length (candidates z buffer acceptEncoding) = none := by
      apply firstBeneficial_none
      intro p hp c hc
      rcases (mem_candidates z buffer acceptEncoding p).mp hp with
        ⟨rfl, hf⟩ | ⟨rfl, hf⟩ | ⟨rfl, hf⟩
      · exact hns.1 hf c hc
      · exact hns.2.1 hf c hc
      · exact hns.2.2 hf c hc
    rw [hnone] at hchar
    simp [Prod.ext_iff] at hchar
    refine ⟨hchar.1, ?_⟩
    unfold CompressionResult.effectivePayload
    rw [hchar.2]

theorem C7_compression_beneficial_only_witness :
    (∃ compressed,
      (compressContent ⟨fun b => some (b.take 1), fun _ => none, fun _ => none⟩
        [1, 2, 3] "br").buffer = some compressed ∧
      compressed.length < ([1, 2, 3] : List Nat).length) ∧
    ((compressContent ⟨fun b => some (b.take 1), fun _ => none, fun _ => none⟩
      [1, 2, 3] "gzip").encoding = none ∧
    (compressContent ⟨fun b => some (b.take 1), fun _ => none, fun _ => none⟩
      [1, 2, 3] "gzip").effectivePayload [1, 2, 3] = [1, 2, 3]) :=
  ⟨(C7_compression_beneficial_only
      ⟨fun b => some (b.take 1), fun _ => none, fun _ => none⟩ [1, 2, 3] "br").1
      "br" rfl,
   (C7_compression_beneficial_only
      ⟨fun b => some (b.take 1), fun _ => none, fun _ => none⟩ [1, 2, 3] "gzip").2
      (by
        refine ⟨?_, ?_, ?_⟩
        · intro hf
          exact absurd hf (by decide)
        · intro _ c hc
          simp at hc
        · intro hf
          exact absurd hf (by decide))⟩

/-- C9: `compressContent` tries the algorithms in the fixed preference order
brotli → gzip → deflate, attempting only those whose tokens occur in the
accepted encodings, and returns the first candidate that both succeeds and is
strictly smaller than the original (first beneficial win); a failed candidate
falls through to the next and the failure is never propagated — the result
always equals the spec-modelled `firstBeneficial` over `candidates`. -/
theorem C9_fixed_order_first_beneficial_win (z : Compressors) (buffer : List Nat)
    (acceptEncoding : String) :
    ((compressContent z buffer acceptEncoding).encoding,
     (compressContent z buffer acceptEncoding).buffer) =
      (match firstBeneficial buffer.length (candidates z buffer acceptEncoding) with
       | some (name, compressed) => (some name, some compressed)
       | none => (none, none)) :=
  compressContent_characterization z buffer acceptEncoding

/-! ## Claims about the rate limiter -/

/-- Reading a key after `setRequests` of the same key yields the new list. -/
theorem getRequests_setRequests (l : List (String × List Int)) (clientId : String)
    (ts : List Int) :
    RateLimiter.getRequests (RateLimiter.setRequests l clientId ts) clientId = ts := by
  induction l with
  | nil => simp [RateLimiter.setRequests, RateLimiter.getRequests]
  | cons p rest ih =>
      obtain ⟨k, ts0⟩ := p
      by_cases hk : k = clientId
      · simp [RateLimiter.setRequests, RateLimiter.getRequests, hk]
      · simp [RateLimiter.setRequests, RateLimiter.getRequests, hk, ih]

/-- C8: `checkLimit` prunes the client's stored timestamps to the trailing
window; a pruned count already at the limit rejects without recording the
request (the state is unchanged); otherwise the current time is appended and
the request allowed.  In particular, with `maxRequests = 3` and
`windowMs = 1000`, four calls within 1000 ms allow the first three and reject
the fourth, and a further call after the window has elapsed succeeds. -/
theorem C8_sliding_window_admission (rl : RateLimiter) (clientId : String)
    (now : Int) :
    (((RateLimiter.getRequests rl.requests clientId).filter
        (fun timestamp => now - timestamp < rl.windowMs)).length ≥ rl.maxRequests →
      rl.checkLimit clientId now = (rl, false)) ∧
    (((RateLimiter.getRequests rl.requests clientId).filter
        (fun timestamp => now - timestamp < rl.windowMs)).length < rl.maxRequests →
      (rl.checkLimit clientId now).2 = true ∧
      RateLimiter.getRequests ((rl.checkLimit clientId now).1).requests clientId =
        (RateLimiter.getRequests rl.requests clientId).filter
          (fun timestamp => now - timestamp < rl.windowMs) ++ [now]) ∧
    RateLimiter.checkSeq (RateLimiter.mkLimiter 3 1000) "x" [0, 100, 200, 300, 1500] =
      [true, true, true, false, true] := by
  refine ⟨?_, ?_, by decide⟩
  · intro hge
    unfold RateLimiter.checkLimit
    dsimp only
    rw [if_pos hge]
  · intro hlt
    unfold RateLimiter.checkLimit
    dsimp only
    rw [if_neg (by omega)]
    exact ⟨rfl, getRequests_setRequests _ _ _⟩

theorem C8_sliding_window_admission_witness :
    ((⟨[("x", [0, 1, 2])], 3, 1000⟩ : RateLimiter).checkLimit "x" 10 =
      ((⟨[("x", [0, 1, 2])], 3, 1000⟩ : RateLimiter), false)) ∧
    (((RateLimiter.mkLimiter 3 1000).checkLimit "y" 7).2 = true ∧
      RateLimiter.getRequests
        (((RateLimiter.mkLimiter 3 1000).checkLimit "y" 7).1).requests "y" =
        (RateLimiter.getRequests (RateLimiter.mkLimiter 3 1000).requests "y").filter
          (fun timestamp => (7 : Int) - timestamp <
            (RateLimiter.mkLimiter 3 1000).windowMs) ++ [7]) :=
  ⟨(C8_sliding_window_admission (⟨[("x", [0, 1, 2])], 3, 1000⟩ : RateLimiter)
      "x" 10).1 (by decide),
   (C8_sliding_window_admission (RateLimiter.mkLimiter 3 1000) "y" 7).2.1
      (by decide)⟩

end CDN
